import Mathlib

set_option maxHeartbeats 1000000

namespace Vernon

/-!
Shallow embedding of the Vernon chatbot's knowledge-base synchronization
and retrieval engine, together with the chat-widget frontend logic
(`src/frontend/src/app/components/ChatWidget.tsx`).  The backend core
(Crawl Differ, Chunker, Confidence Blender, Response Cache, Topic Router,
Ingestion Coordinator) is not part of the captured sources, so those
components are modelled from the specification; the frontend functions are
translated from the TypeScript source.
-/

/-! ## Association-list maps over source keys -/

/-- Lookup by key in an association list; models a source-key map. -/
def alistLookup {α β : Type} [DecidableEq α] : List (α × β) → α → Option β
  | [], _ => none
  | (k, v) :: rest, q => if k = q then some v else alistLookup rest q

/-- The keys of an association list. -/
def keysOf {α β : Type} (m : List (α × β)) : List α := m.map Prod.fst

/-! ## Crawl Differ (modelled from the spec; the differ implementation is
not among the captured source files) -/

/-- The three output sets of the Crawl Differ. -/
structure DiffResult where
  newKeys : List String
  changedKeys : List String
  removedKeys : List String
deriving Repr, DecidableEq

/-- A key counts as changed when its fetch succeeded, the store also holds
it, and the two content hashes differ. -/
def hashChanged (stored : Option Nat) (fetched : Option Nat) : Bool :=
  match fetched, stored with
  | some a, some b => a != b
  | _, _ => false

/-- Modelled from the spec: the Crawl Differ compares the store's current
source-key to content-hash map against a freshly fetched snapshot.  Each
fetched key carries `some hash` on success and `none` when its fetch
failed; a failed key is skipped (neither new, changed nor removed), and a
store key wholly absent from the fetch snapshot is removed. -/
def incrementalDiff (store : List (String × Nat))
    (fresh : List (String × Option Nat)) : DiffResult :=
  { newKeys := (fresh.filter (fun kv =>
        kv.2.isSome && (alistLookup store kv.1).isNone)).map Prod.fst
    changedKeys := (fresh.filter (fun kv =>
        hashChanged (alistLookup store kv.1) kv.2)).map Prod.fst
    removedKeys := (store.filter (fun kv =>
        (alistLookup fresh kv.1).isNone)).map Prod.fst }

/-- A fully successful crawl snapshot: every fetched key carries its hash. -/
def liftFetched (b : List (String × Nat)) : List (String × Option Nat) :=
  b.map (fun kv => (kv.1, some kv.2))

/-- Modelled from the spec: full mode bypasses diffing entirely — every
store entry is treated as removed and every successfully fetched entry as
new. -/
def fullDiff (store : List (String × Nat))
    (fresh : List (String × Option Nat)) : DiffResult :=
  { newKeys := (fresh.filter (fun kv => kv.2.isSome)).map Prod.fst
    changedKeys := []
    removedKeys := store.map Prod.fst }

/-- A key is unchanged across a diff when both snapshots map it to the
same hash. -/
def unchangedKey (a b : List (String × Nat)) (k : String) : Prop :=
  ∃ h, alistLookup a k = some h ∧ alistLookup b k = some h

instance (a b : List (String × Nat)) (k : String) :
    Decidable (unchangedKey a b k) := by
  unfold unchangedKey
  cases alistLookup a k with
  | none => exact .isFalse (by simp)
  | some h =>
    cases alistLookup b k with
    | none => exact .isFalse (by simp)
    | some h2 =>
      by_cases he : h = h2
      · exact .isTrue ⟨h, rfl, by rw [he]⟩
      · refine .isFalse ?_
        rintro ⟨x, hx1, hx2⟩
        rw [Option.some.injEq] at hx1 hx2
        exact he (hx1.trans hx2.symm)

/-! ## Chunker (modelled from the spec) -/

/-- Modelled from the spec: the Chunker splits text into overlapping
fixed-size windows.  Each produced pair is (absolute start position,
window text); the window at `pos` holds the next `w` text units, and the
next window starts `w - o` units later, i.e. `o` units before the end of
the previous full window.  Input no longer than one window yields exactly
one window.  The degenerate configuration `w ≤ o` also stops (the spec
requires `o < w`). -/
def chunkFrom (w o : Nat) (s : List Char) (pos : Nat) :
    List (Nat × List Char) :=
  if h : s.length ≤ w ∨ w ≤ o then [(pos, s)]
  else (pos, s.take w) :: chunkFrom w o (s.drop (w - o)) (pos + (w - o))
termination_by s.length
decreasing_by
  simp only [List.length_drop]
  push_neg at h
  omega

/-- The chunk windows of a text, starting at position 0. -/
def chunkWindows (w o : Nat) (s : List Char) : List (Nat × List Char) :=
  chunkFrom w o s 0

/-! ## Confidence Blender (modelled from the spec) -/

/-- The best (smallest) retrieval distance of a result list. -/
def bestDistance : List ℚ → Option ℚ
  | [] => none
  | d :: ds =>
    some (match bestDistance ds with
      | none => d
      | some m => min d m)

/-- Modelled from the spec: normalize the best retrieval distance into a
retrieval confidence in [0,1]: 1 at distance 0, 0 at or beyond the
configured maximum-useful-distance, linear in between, clamped; an empty
retrieval yields 0. -/
def retrievalConfidence (maxUsefulDistance : ℚ) (topDistances : List ℚ) : ℚ :=
  match bestDistance topDistances with
  | none => 0
  | some d => max 0 (min 1 (1 - d / maxUsefulDistance))

/-- Modelled from the spec: the blended confidence score is
0.6 * selfReportedConfidence + 0.4 * retrievalConfidence. -/
def blend (maxUsefulDistance selfConf : ℚ) (topDistances : List ℚ) : ℚ :=
  (6 / 10) * selfConf +
    (4 / 10) * retrievalConfidence maxUsefulDistance topDistances

/-- Modelled from the spec: an answer requires handoff when the final
score falls below the configured threshold or retrieval returned zero
chunks. -/
def handoffNeeded (threshold finalScore : ℚ) (numChunks : Nat) : Bool :=
  decide (finalScore < threshold) || decide (numChunks = 0)

/-! ## Content Store generation counter and Response Cache (modelled from
the spec) -/

structure CacheEntry where
  answer : String
  generation : Nat
  expiry : Nat
deriving Repr, DecidableEq

structure SystemState where
  generation : Nat
  pages : List (String × Nat)
  cache : List ((String × String) × CacheEntry)
deriving Repr

/-- Replace the page entry for a source key. -/
def upsertPage (pages : List (String × Nat)) (k : String) (h : Nat) :
    List (String × Nat) :=
  (k, h) :: pages.filter (fun kv => kv.1 != k)

/-- Modelled from the spec: a successful ingest replaces the content for a
source key and increments the store generation counter. -/
def ingest (s : SystemState) (k : String) (h : Nat) : SystemState :=
  { s with
    generation := s.generation + 1
    pages := upsertPage s.pages k h }

/-- Modelled from the spec: a tombstone removes the content for a source
key and increments the store generation counter. -/
def tombstone (s : SystemState) (k : String) : SystemState :=
  { s with
    generation := s.generation + 1
    pages := s.pages.filter (fun kv => kv.1 != k) }

/-- Modelled from the spec: the Response Cache returns a cached answer
only if an entry exists, its recorded generation matches the current
generation counter, and its TTL has not expired. -/
def cacheGet (s : SystemState) (q lang : String) (now : Nat) :
    Option String :=
  match alistLookup s.cache (q, lang) with
  | none => none
  | some e =>
    if e.generation = s.generation ∧ now ≤ e.expiry then some e.answer
    else none

/-- Modelled from the spec: put stores the answer stamped with the
generation counter captured at write time and an expiry of now + TTL. -/
def cachePut (s : SystemState) (q lang answer : String) (ttl now : Nat) :
    SystemState :=
  { s with
    cache := ((q, lang), ⟨answer, s.generation, now + ttl⟩) ::
      s.cache.filter (fun kv => kv.1 != (q, lang)) }

/-! ## Topic Router (modelled from the spec) -/

structure Topic where
  label : String
  patterns : List (List Char)
deriving Repr, DecidableEq

/-- Does `s` start with `p`? -/
def startsWithChars : List Char → List Char → Bool
  | [], _ => true
  | _ :: _, [] => false
  | p :: ps, c :: cs => p == c && startsWithChars ps cs

/-- Does `p` occur as a contiguous substring of `s`? -/
def containsChars (p : List Char) : List Char → Bool
  | [] => startsWithChars p []
  | c :: cs => startsWithChars p (c :: cs) || containsChars p cs

/-- Lower-case a character list. -/
def lowerChars (s : List Char) : List Char := s.map Char.toLower

/-- Modelled from the spec: a topic's score counts how many of its
configured keyword patterns occur in the lower-cased query. -/
def topicScore (q : List Char) (t : Topic) : Nat :=
  (t.patterns.filter (fun p => containsChars p (lowerChars q))).length

/-- First element attaining the maximal score: a later element replaces
the current best only when strictly greater, so ties resolve to the
earlier (higher-priority) topic. -/
def argmaxFirst : List (Topic × Nat) → Option (Topic × Nat)
  | [] => none
  | x :: xs =>
    match argmaxFirst xs with
    | none => some x
    | some y => if x.2 < y.2 then some y else some x

/-- Modelled from the spec: classify scores every configured topic
against the lower-cased query, picks the highest score with ties broken
by the fixed priority order of the configuration list, and falls back to
the label "general" when no pattern matched. -/
def classify (topics : List Topic) (q : List Char) : String :=
  match argmaxFirst (topics.map (fun t => (t, topicScore q t))) with
  | none => "general"
  | some (t, sc) => if sc = 0 then "general" else t.label

/-! ## Chat widget frontend (translated from
src/frontend/src/app/components/ChatWidget.tsx) -/

/-- The character list of a string literal. -/
def chars (s : String) : List Char := s.data

/-- ChatWidget.tsx line 209: the low-confidence marking compares the
streamed confidence against the literal 0.65 and marks nothing when no
confidence was streamed. -/
def isLowConf (confidence : Option ℚ) : Bool :=
  match confidence with
  | none => false
  | some c => decide (c < 65 / 100)

/-- The opening characters of the inline confidence marker. -/
def confMarkerOpen : List Char := chars "[CONFIDENCE:"

/-- The inline handoff marker. -/
def handoffMarker : List Char := chars "[HANDOFF_NEEDED]"

/-- The character class of the regex part matching the number: digits and
the dot. -/
def isDigitDot (c : Char) : Bool := c.isDigit || c == '.'

/-- Strip an explicit pattern from the front: some remainder when
s = p ++ remainder. -/
def stripPfx : List Char → List Char → Option (List Char)
  | [], s => some s
  | _ :: _, [] => none
  | p :: ps, c :: cs => if p = c then stripPfx ps cs else none

/-- Match of the regex for a confidence marker at the front of `s`: after
the literal opening, a nonempty greedy run of digits and dots must be
followed by a closing bracket (the character class excludes the closing
bracket, so the greedy run is deterministic).  Returns the remainder
after the marker. -/
def confMatch (s : List Char) : Option (List Char) :=
  match stripPfx confMarkerOpen s with
  | none => none
  | some r =>
    if (r.takeWhile isDigitDot).isEmpty then none
    else
      match r.dropWhile isDigitDot with
      | [] => none
      | e :: tail => if e = ']' then some tail else none

/-- Match of the literal handoff marker at the front of `s`. -/
def handoffMatch (s : List Char) : Option (List Char) :=
  stripPfx handoffMarker s

/-- One global-pass replacement with the empty string, as the JavaScript
replace with the g flag performs it: scan left to right over the original
characters, delete each leftmost match and continue scanning after it.
The fuel argument bounds the recursion; stripAll supplies enough. -/
def stripAux (m : List Char → Option (List Char)) :
    Nat → List Char → List Char
  | 0, s => s
  | _ + 1, [] => []
  | fuel + 1, c :: cs =>
    match m (c :: cs) with
    | some r => stripAux m fuel r
    | none => c :: stripAux m fuel cs

/-- Remove every scan match of the matcher, one pass. -/
def stripAll (m : List Char → Option (List Char)) (s : List Char) :
    List Char :=
  stripAux m s.length s

/-- Does the matcher match at any position of `s`? -/
def hasMarker (m : List Char → Option (List Char)) : List Char → Bool
  | [] => false
  | c :: cs => (m (c :: cs)).isSome || hasMarker m cs

/-- The JavaScript whitespace characters relevant here (the source uses
String.trim, modelled over ASCII whitespace). -/
def isWsChar (c : Char) : Bool :=
  c == ' ' || c == '\t' || c == '\n' || c == '\r'

/-- Trim from the left. -/
def ltrim (s : List Char) : List Char := s.dropWhile isWsChar

/-- Trim from the right. -/
def rtrim : List Char → List Char
  | [] => []
  | c :: cs =>
    match rtrim cs with
    | [] => if isWsChar c then [] else [c]
    | r => c :: r

/-- The String.trim of ChatWidget.tsx, over character lists. -/
def trimChars (s : List Char) : List Char := rtrim (ltrim s)

/-- ChatWidget.tsx lines 204-207: first strip all confidence markers and
trim, then strip all handoff markers and trim. -/
def cleanAccumulated (acc : List Char) : List Char :=
  trimChars (stripAll handoffMatch (trimChars (stripAll confMatch acc)))

/-- The apostrophe character, kept out of string literals. -/
def apos : Char := Char.ofNat 39

/-- ChatWidget.tsx line 215: the fixed fallback text shown when the
cleaned accumulated text is empty. -/
def fallbackText : List Char :=
  chars "Sorry, I couldn" ++ [apos] ++ chars "t generate a response."

/-- The final assistant content: the cleaned accumulated token text, or
the fallback when it is empty. -/
def finalContent (acc : List Char) : List Char :=
  if (cleanAccumulated acc).isEmpty then fallbackText else cleanAccumulated acc

/-- The accumulated token text of a completed stream. -/
def accumulateTokens (tokens : List (List Char)) : List Char :=
  tokens.flatten

/-- Scan checking that `s` is an interleaving of marker-free text and
complete matcher markers: every occurrence of the opening bracket starts
a complete marker. -/
def goodAux (m : List Char → Option (List Char)) :
    Nat → List Char → Bool
  | 0, s => s.isEmpty
  | _ + 1, [] => true
  | fuel + 1, c :: cs =>
    if c = '[' then
      match m (c :: cs) with
      | some r => goodAux m fuel r
      | none => false
    else goodAux m fuel cs

/-- Interleaving check with enough fuel. -/
def goodMarked (m : List Char → Option (List Char)) (s : List Char) :
    Bool :=
  goodAux m s.length s

/-- Combined matcher: a confidence marker or a handoff marker. -/
def anyMarker (s : List Char) : Option (List Char) :=
  match confMatch s with
  | some r => some r
  | none => handoffMatch s

/-- The English generic error translation (translations.ts). -/
def errorGenericEn : List Char :=
  chars "Something went wrong. Please try again."

/-- The French generic error translation (translations.ts). -/
def errorGenericFr : List Char :=
  chars "Quelque chose s" ++ [apos] ++
    chars "est mal pass" ++ [Char.ofNat 233] ++
    chars ". Veuillez r" ++ [Char.ofNat 233] ++ chars "essayer."

structure HandoffInfo where
  email : List Char
  phone : List Char
  url : List Char
  summary : List Char
deriving Repr, DecidableEq

structure AssistantMessage where
  content : List Char
  handoff : Option HandoffInfo
  lowConfidence : Bool
deriving Repr, DecidableEq

/-- ChatWidget.tsx lines 211-223: the final message update after a
completed stream. -/
def finalizeStreamed (acc : List Char) (handoff : Option HandoffInfo)
    (confidence : Option ℚ) : AssistantMessage :=
  { content := finalContent acc
    handoff := handoff
    lowConfidence := isLowConf confidence }

/-- ChatWidget.tsx lines 224-235: the catch branch. errMsg carries some
message when the thrown value is an Error and none otherwise; the shown
content is the Error message behind an Error label, or the generic
error translation, and no handoff information is attached. -/
def finalizeError (errMsg : Option (List Char))
    (tErrorGeneric : List Char) : AssistantMessage :=
  { content :=
      match errMsg with
      | some msg => chars "Error: " ++ msg
      | none => tErrorGeneric
    handoff := none
    lowConfidence := false }

/-- Replacing the last message of the list, as the updater functions in
sendMessage do. -/
def updateLast (msgs : List AssistantMessage) (m : AssistantMessage) :
    List AssistantMessage :=
  msgs.dropLast ++ [m]

/-! ## Helper lemmas on association lists -/

theorem alistLookup_eq_none_iff {α β : Type} [DecidableEq α] (m : List (α × β)) (k : α) :
    alistLookup m k = none ↔ k ∉ keysOf m := by
  induction m with
  | nil => simp [alistLookup, keysOf]
  | cons kv rest ih =>
    obtain ⟨k0, v0⟩ := kv
    by_cases h : k0 = k
    · subst h
      simp [alistLookup, keysOf]
    · simp [alistLookup, keysOf, h, Ne.symm h] at ih ⊢
      exact ih

theorem alistLookup_isSome_iff {α β : Type} [DecidableEq α] (m : List (α × β)) (k : α) :
    (alistLookup m k).isSome = true ↔ k ∈ keysOf m := by
  rw [Option.isSome_iff_ne_none]
  constructor
  · intro h
    by_contra hk
    exact h ((alistLookup_eq_none_iff m k).mpr hk)
  · intro h hn
    exact ((alistLookup_eq_none_iff m k).mp hn) h

theorem mem_keysOf {α β : Type} [DecidableEq α] (m : List (α × β)) (k : α) :
    k ∈ keysOf m ↔ ∃ v, (k, v) ∈ m := by
  constructor
  · intro h
    obtain ⟨⟨k0, v0⟩, hm, hk⟩ := List.mem_map.mp h
    subst hk
    exact ⟨v0, hm⟩
  · rintro ⟨v, hv⟩
    exact List.mem_map.mpr ⟨(k, v), hv, rfl⟩

theorem alistLookup_eq_some_of_mem {α β : Type} [DecidableEq α] {m : List (α × β)}
    (hnd : (keysOf m).Nodup) {k : α} {v : β} (hm : (k, v) ∈ m) :
    alistLookup m k = some v := by
  induction m with
  | nil => simp at hm
  | cons kv rest ih =>
    obtain ⟨k0, v0⟩ := kv
    simp only [keysOf, List.map_cons, List.nodup_cons] at hnd
    rcases List.mem_cons.mp hm with heq | hmem
    · obtain ⟨hk, hv⟩ := Prod.mk.inj heq
      subst hk
      subst hv
      simp [alistLookup]
    · have hk0 : k0 ≠ k := by
        intro h
        subst h
        exact hnd.1 ((mem_keysOf rest k0).mpr ⟨v, hmem⟩)
      simp only [alistLookup, if_neg hk0]
      exact ih hnd.2 hmem

theorem mem_of_alistLookup_eq_some {α β : Type} [DecidableEq α] {m : List (α × β)}
    {k : α} {v : β} (h : alistLookup m k = some v) : (k, v) ∈ m := by
  induction m with
  | nil => simp [alistLookup] at h
  | cons kv rest ih =>
    obtain ⟨k0, v0⟩ := kv
    by_cases hk : k0 = k
    · subst hk
      simp [alistLookup] at h
      subst h
      exact List.mem_cons_self ..
    · simp only [alistLookup, if_neg hk] at h
      exact List.mem_cons_of_mem _ (ih h)

theorem alistLookup_eq_some_iff_mem {α β : Type} [DecidableEq α] {m : List (α × β)}
    (hnd : (keysOf m).Nodup) (k : α) (v : β) :
    alistLookup m k = some v ↔ (k, v) ∈ m :=
  ⟨mem_of_alistLookup_eq_some, alistLookup_eq_some_of_mem hnd⟩

theorem alistLookup_liftFetched (b : List (String × Nat)) (k : String) :
    alistLookup (liftFetched b) k = (alistLookup b k).map some := by
  induction b with
  | nil => simp [alistLookup, liftFetched]
  | cons kv rest ih =>
    obtain ⟨k0, v0⟩ := kv
    by_cases h : k0 = k
    · subst h
      simp [alistLookup, liftFetched]
    · simp [alistLookup, liftFetched, h] at ih ⊢
      exact ih

theorem keysOf_liftFetched (b : List (String × Nat)) :
    keysOf (liftFetched b) = keysOf b := by
  simp [keysOf, liftFetched]

theorem mem_liftFetched (b : List (String × Nat)) (k : String) (h : Nat) :
    (k, some h) ∈ liftFetched b ↔ (k, h) ∈ b := by
  unfold liftFetched
  constructor
  · intro hm
    obtain ⟨⟨k0, v0⟩, hmem, heq⟩ := List.mem_map.mp hm
    obtain ⟨hk, hv⟩ := Prod.mk.inj heq
    rw [Option.some.injEq] at hv
    subst hk
    subst hv
    exact hmem
  · intro hm
    exact List.mem_map.mpr ⟨(k, h), hm, rfl⟩

theorem mem_newKeys_iff (store : List (String × Nat))
    (fresh : List (String × Option Nat)) (k : String) :
    k ∈ (incrementalDiff store fresh).newKeys ↔
      (∃ h, (k, some h) ∈ fresh) ∧ k ∉ keysOf store := by
  simp only [incrementalDiff, List.mem_map, List.mem_filter]
  constructor
  · rintro ⟨⟨k0, v0⟩, ⟨hmem, hp⟩, rfl⟩
    rw [Bool.and_eq_true] at hp
    obtain ⟨h1, h2⟩ := hp
    obtain ⟨h, rfl⟩ := Option.isSome_iff_exists.mp h1
    refine ⟨⟨h, hmem⟩, ?_⟩
    exact (alistLookup_eq_none_iff store _).mp (Option.isNone_iff_eq_none.mp h2)
  · rintro ⟨⟨h, hmem⟩, hout⟩
    refine ⟨(k, some h), ⟨hmem, ?_⟩, rfl⟩
    rw [Bool.and_eq_true]
    exact ⟨rfl, Option.isNone_iff_eq_none.mpr
      ((alistLookup_eq_none_iff store k).mpr hout)⟩

theorem mem_changedKeys_iff (store : List (String × Nat))
    (fresh : List (String × Option Nat)) (k : String) :
    k ∈ (incrementalDiff store fresh).changedKeys ↔
      ∃ h h2, (k, some h) ∈ fresh ∧ alistLookup store k = some h2 ∧ h ≠ h2 := by
  simp only [incrementalDiff, List.mem_map, List.mem_filter]
  constructor
  · rintro ⟨⟨k0, v0⟩, ⟨hmem, hp⟩, rfl⟩
    have hp' : hashChanged (alistLookup store k0) v0 = true := hp
    cases v0 with
    | none =>
      cases hls : alistLookup store k0 <;> rw [hls] at hp' <;> simp [hashChanged] at hp'
    | some h =>
      cases hl : alistLookup store k0 with
      | none => rw [hl] at hp'; simp [hashChanged] at hp'
      | some h2 =>
        rw [hl] at hp'
        simp only [hashChanged, bne_iff_ne, ne_eq] at hp'
        exact ⟨h, h2, hmem, rfl, hp'⟩
  · rintro ⟨h, h2, hmem, hl, hne⟩
    refine ⟨(k, some h), ⟨hmem, ?_⟩, rfl⟩
    show hashChanged (alistLookup store k) (some h) = true
    rw [hl]
    simp only [hashChanged, bne_iff_ne, ne_eq]
    exact hne

theorem mem_removedKeys_iff (store : List (String × Nat))
    (fresh : List (String × Option Nat)) (k : String) :
    k ∈ (incrementalDiff store fresh).removedKeys ↔
      k ∈ keysOf store ∧ alistLookup fresh k = none := by
  simp only [incrementalDiff, List.mem_map, List.mem_filter]
  constructor
  · rintro ⟨⟨k0, v0⟩, ⟨hmem, hp⟩, rfl⟩
    exact ⟨(mem_keysOf store _).mpr ⟨v0, hmem⟩, Option.isNone_iff_eq_none.mp hp⟩
  · rintro ⟨hk, hl⟩
    obtain ⟨v, hv⟩ := (mem_keysOf store k).mp hk
    exact ⟨(k, v), ⟨hv, Option.isNone_iff_eq_none.mpr hl⟩, rfl⟩

theorem mem_keysOf_iff_lookup {α β : Type} [DecidableEq α]
    (m : List (α × β)) (k : α) :
    k ∈ keysOf m ↔ ∃ v, alistLookup m k = some v := by
  rw [← alistLookup_isSome_iff]
  exact Option.isSome_iff_exists

/-! ## Claim C1 -/

/-- C1 (amended): for store snapshot A and fresh snapshot B the diff sets
are exactly new = B minus A, removed = A minus B, and changed = common
keys with differing hashes; the three sets are pairwise disjoint, and
together with the unchanged common keys they partition the union of the
key sets.  The three sets alone do not partition the union: an unchanged
key lies in the union but in none of them. -/
theorem claim_C1_diff_correctness (A B : List (String × Nat))
    (hB : (keysOf B).Nodup) (k : String) :
    (k ∈ (incrementalDiff A (liftFetched B)).newKeys ↔
        k ∈ keysOf B ∧ k ∉ keysOf A) ∧
    (k ∈ (incrementalDiff A (liftFetched B)).removedKeys ↔
        k ∈ keysOf A ∧ k ∉ keysOf B) ∧
    (k ∈ (incrementalDiff A (liftFetched B)).changedKeys ↔
        ∃ ha hb, alistLookup A k = some ha ∧ alistLookup B k = some hb ∧
          hb ≠ ha) ∧
    ¬ (k ∈ (incrementalDiff A (liftFetched B)).newKeys ∧
        k ∈ (incrementalDiff A (liftFetched B)).changedKeys) ∧
    ¬ (k ∈ (incrementalDiff A (liftFetched B)).newKeys ∧
        k ∈ (incrementalDiff A (liftFetched B)).removedKeys) ∧
    ¬ (k ∈ (incrementalDiff A (liftFetched B)).changedKeys ∧
        k ∈ (incrementalDiff A (liftFetched B)).removedKeys) ∧
    ((k ∈ keysOf A ∨ k ∈ keysOf B) ↔
        (k ∈ (incrementalDiff A (liftFetched B)).newKeys ∨
          k ∈ (incrementalDiff A (liftFetched B)).changedKeys ∨
          k ∈ (incrementalDiff A (liftFetched B)).removedKeys ∨
          unchangedKey A B k)) := by
  have hnew : k ∈ (incrementalDiff A (liftFetched B)).newKeys ↔
      k ∈ keysOf B ∧ k ∉ keysOf A := by
    rw [mem_newKeys_iff]
    simp only [mem_liftFetched, ← mem_keysOf]
  have hrem : k ∈ (incrementalDiff A (liftFetched B)).removedKeys ↔
      k ∈ keysOf A ∧ k ∉ keysOf B := by
    rw [mem_removedKeys_iff, alistLookup_liftFetched,
      Option.map_eq_none', alistLookup_eq_none_iff]
  have hchg : k ∈ (incrementalDiff A (liftFetched B)).changedKeys ↔
      ∃ ha hb, alistLookup A k = some ha ∧ alistLookup B k = some hb ∧
        hb ≠ ha := by
    rw [mem_changedKeys_iff]
    constructor
    · rintro ⟨h, h2, hmem, hl, hne⟩
      exact ⟨h2, h, hl,
        (alistLookup_eq_some_iff_mem hB k h).mpr
          ((mem_liftFetched B k h).mp hmem), hne⟩
    · rintro ⟨ha, hb, hla, hlb, hne⟩
      exact ⟨hb, ha,
        (mem_liftFetched B k hb).mpr (mem_of_alistLookup_eq_some hlb),
        hla, hne⟩
  refine ⟨hnew, hrem, hchg, ?_, ?_, ?_, ?_⟩
  · rintro ⟨h1, h2⟩
    rw [hnew] at h1
    rw [hchg] at h2
    obtain ⟨ha, _, hla, _, _⟩ := h2
    exact h1.2 ((mem_keysOf_iff_lookup A k).mpr ⟨ha, hla⟩)
  · rintro ⟨h1, h2⟩
    rw [hnew] at h1
    rw [hrem] at h2
    exact h1.2 h2.1
  · rintro ⟨h1, h2⟩
    rw [hchg] at h1
    rw [hrem] at h2
    obtain ⟨_, hb, _, hlb, _⟩ := h1
    exact h2.2 ((mem_keysOf_iff_lookup B k).mpr ⟨hb, hlb⟩)
  · rw [hnew, hrem, hchg]
    rw [mem_keysOf_iff_lookup A k, mem_keysOf_iff_lookup B k]
    unfold unchangedKey
    constructor
    · intro hu
      rcases hLA : alistLookup A k with _ | ha
      · rcases hLB : alistLookup B k with _ | hb
        · rcases hu with ⟨v, hv⟩ | ⟨v, hv⟩
          · rw [hLA] at hv; cases hv
          · rw [hLB] at hv; cases hv
        · left
          refine ⟨⟨hb, rfl⟩, ?_⟩
          rintro ⟨v, hv⟩
          cases hv
      · rcases hLB : alistLookup B k with _ | hb
        · right; right; left
          refine ⟨⟨ha, rfl⟩, ?_⟩
          rintro ⟨v, hv⟩
          cases hv
        · by_cases heq : hb = ha
          · right; right; right
            subst heq
            exact ⟨hb, rfl, rfl⟩
          · right; left
            exact ⟨ha, hb, rfl, rfl, heq⟩
    · rintro (⟨⟨hb, hlb⟩, _⟩ | ⟨ha, hb, hla, _, _⟩ | ⟨⟨ha, hla⟩, _⟩ |
        ⟨h0, hla, _⟩)
      · exact Or.inr ⟨hb, hlb⟩
      · exact Or.inl ⟨ha, hla⟩
      · exact Or.inl ⟨ha, hla⟩
      · exact Or.inl ⟨h0, hla⟩

/-- C1 counterexample to the claim as stated: when a key is present in
both snapshots with the same hash it lies in the union of the key sets
yet in none of the three diff sets, so the three sets do not partition
the union. -/
theorem claim_C1_counterexample :
    "a" ∈ keysOf [("a", (1 : Nat))] ∧
    "a" ∉ (incrementalDiff [("a", 1)] (liftFetched [("a", 1)])).newKeys ∧
    "a" ∉ (incrementalDiff [("a", 1)] (liftFetched [("a", 1)])).changedKeys ∧
    "a" ∉ (incrementalDiff [("a", 1)] (liftFetched [("a", 1)])).removedKeys := by
  constructor
  · decide
  refine ⟨?_, ?_, ?_⟩ <;> decide

/-- C1 witness: the amended theorem applied to the concrete snapshots
A = [a: 1, b: 2] and B = [a: 5, c: 3] at the key a. -/
theorem claim_C1_witness :
    (keysOf [("a", (5 : Nat)), ("c", 3)]).Nodup ∧
    (("a" ∈ (incrementalDiff [("a", (1 : Nat)), ("b", 2)]
          (liftFetched [("a", 5), ("c", 3)])).newKeys ↔
        "a" ∈ keysOf [("a", (5 : Nat)), ("c", 3)] ∧
          "a" ∉ keysOf [("a", (1 : Nat)), ("b", 2)]) ∧
      ("a" ∈ (incrementalDiff [("a", (1 : Nat)), ("b", 2)]
          (liftFetched [("a", 5), ("c", 3)])).removedKeys ↔
        "a" ∈ keysOf [("a", (1 : Nat)), ("b", 2)] ∧
          "a" ∉ keysOf [("a", (5 : Nat)), ("c", 3)]) ∧
      ("a" ∈ (incrementalDiff [("a", (1 : Nat)), ("b", 2)]
          (liftFetched [("a", 5), ("c", 3)])).changedKeys ↔
        ∃ ha hb, alistLookup [("a", (1 : Nat)), ("b", 2)] "a" = some ha ∧
          alistLookup [("a", (5 : Nat)), ("c", 3)] "a" = some hb ∧
          hb ≠ ha) ∧
      ¬ ("a" ∈ (incrementalDiff [("a", (1 : Nat)), ("b", 2)]
            (liftFetched [("a", 5), ("c", 3)])).newKeys ∧
          "a" ∈ (incrementalDiff [("a", (1 : Nat)), ("b", 2)]
            (liftFetched [("a", 5), ("c", 3)])).changedKeys) ∧
      ¬ ("a" ∈ (incrementalDiff [("a", (1 : Nat)), ("b", 2)]
            (liftFetched [("a", 5), ("c", 3)])).newKeys ∧
          "a" ∈ (incrementalDiff [("a", (1 : Nat)), ("b", 2)]
            (liftFetched [("a", 5), ("c", 3)])).removedKeys) ∧
      ¬ ("a" ∈ (incrementalDiff [("a", (1 : Nat)), ("b", 2)]
            (liftFetched [("a", 5), ("c", 3)])).changedKeys ∧
          "a" ∈ (incrementalDiff [("a", (1 : Nat)), ("b", 2)]
            (liftFetched [("a", 5), ("c", 3)])).removedKeys) ∧
      (("a" ∈ keysOf [("a", (1 : Nat)), ("b", 2)] ∨
          "a" ∈ keysOf [("a", (5 : Nat)), ("c", 3)]) ↔
        ("a" ∈ (incrementalDiff [("a", (1 : Nat)), ("b", 2)]
            (liftFetched [("a", 5), ("c", 3)])).newKeys ∨
          "a" ∈ (incrementalDiff [("a", (1 : Nat)), ("b", 2)]
            (liftFetched [("a", 5), ("c", 3)])).changedKeys ∨
          "a" ∈ (incrementalDiff [("a", (1 : Nat)), ("b", 2)]
            (liftFetched [("a", 5), ("c", 3)])).removedKeys ∨
          unchangedKey [("a", (1 : Nat)), ("b", 2)]
            [("a", (5 : Nat)), ("c", 3)] "a"))) :=
  ⟨by decide,
    claim_C1_diff_correctness [("a", 1), ("b", 2)] [("a", 5), ("c", 3)]
      (by decide) "a"⟩

/-! ## Claim C8 -/

/-- C8: a source key whose fetch failed during the cycle appears in none
of the differ's three output sets, and full mode bypasses diffing: every
store entry is removed, every successfully fetched entry is new, and
nothing is changed. -/
theorem claim_C8_failed_fetch_skipped_and_full_mode
    (store : List (String × Nat)) (fresh : List (String × Option Nat))
    (k : String) (hnd : (keysOf fresh).Nodup)
    (hfail : alistLookup fresh k = some none) :
    (k ∉ (incrementalDiff store fresh).newKeys ∧
      k ∉ (incrementalDiff store fresh).changedKeys ∧
      k ∉ (incrementalDiff store fresh).removedKeys) ∧
    ((∀ k2, k2 ∈ (fullDiff store fresh).removedKeys ↔ k2 ∈ keysOf store) ∧
      (∀ k2, k2 ∈ (fullDiff store fresh).newKeys ↔
        ∃ h, (k2, some h) ∈ fresh) ∧
      (fullDiff store fresh).changedKeys = []) := by
  refine ⟨⟨?_, ?_, ?_⟩, ?_, ?_, rfl⟩
  · intro hmem
    obtain ⟨⟨h0, hmem0⟩, _⟩ := (mem_newKeys_iff store fresh k).mp hmem
    have := alistLookup_eq_some_of_mem hnd hmem0
    rw [hfail] at this
    cases this
  · intro hmem
    obtain ⟨h0, _, hmem0, _, _⟩ := (mem_changedKeys_iff store fresh k).mp hmem
    have := alistLookup_eq_some_of_mem hnd hmem0
    rw [hfail] at this
    cases this
  · intro hmem
    obtain ⟨_, hnone⟩ := (mem_removedKeys_iff store fresh k).mp hmem
    rw [hfail] at hnone
    cases hnone
  · intro k2
    simp [fullDiff, keysOf]
  · intro k2
    simp only [fullDiff, List.mem_map, List.mem_filter]
    constructor
    · rintro ⟨⟨k0, v0⟩, ⟨hmem0, hs⟩, rfl⟩
      obtain ⟨h0, rfl⟩ := Option.isSome_iff_exists.mp hs
      exact ⟨h0, hmem0⟩
    · rintro ⟨h0, hmem0⟩
      exact ⟨(k2, some h0), ⟨hmem0, rfl⟩, rfl⟩

/-- C8 witness: the theorem applied to the store [a: 1, b: 7] and the
fetch snapshot in which a succeeded with hash 2 and the fetch of b
failed. -/
theorem claim_C8_witness :
    (keysOf [("a", some (2 : Nat)), ("b", none)]).Nodup ∧
    alistLookup [("a", some (2 : Nat)), ("b", none)] "b" = some none ∧
    (("b" ∉ (incrementalDiff [("a", (1 : Nat)), ("b", 7)]
          [("a", some 2), ("b", none)]).newKeys ∧
        "b" ∉ (incrementalDiff [("a", (1 : Nat)), ("b", 7)]
          [("a", some 2), ("b", none)]).changedKeys ∧
        "b" ∉ (incrementalDiff [("a", (1 : Nat)), ("b", 7)]
          [("a", some 2), ("b", none)]).removedKeys) ∧
      ((∀ k2, k2 ∈ (fullDiff [("a", (1 : Nat)), ("b", 7)]
            [("a", some 2), ("b", none)]).removedKeys ↔
          k2 ∈ keysOf [("a", (1 : Nat)), ("b", 7)]) ∧
        (∀ k2, k2 ∈ (fullDiff [("a", (1 : Nat)), ("b", 7)]
            [("a", some 2), ("b", none)]).newKeys ↔
          ∃ h, (k2, some h) ∈ [("a", some (2 : Nat)), ("b", none)]) ∧
        (fullDiff [("a", (1 : Nat)), ("b", 7)]
          [("a", some 2), ("b", none)]).changedKeys = [])) :=
  ⟨by decide, by decide,
    claim_C8_failed_fetch_skipped_and_full_mode
      [("a", 1), ("b", 7)] [("a", some 2), ("b", none)] "b"
      (by decide) (by decide)⟩

/-! ## Claim C3 -/

/-- C3: for a self-reported confidence in [0,1] the blended score lies in
[0,1]; a self confidence of 1 with an exact-match retrieval distance of 0
blends to exactly 1; and with self confidence 0 and no retrieval the
score is below any positive configured handoff threshold. -/
theorem claim_C3_confidence_bounds (maxD threshold sc : ℚ) (ds : List ℚ)
    (hsc0 : 0 ≤ sc) (hsc1 : sc ≤ 1) (hthr : 0 < threshold) :
    (0 ≤ blend maxD sc ds ∧ blend maxD sc ds ≤ 1) ∧
    blend maxD 1 [0] = 1 ∧
    blend maxD 0 [] < threshold := by
  have hrc : 0 ≤ retrievalConfidence maxD ds ∧
      retrievalConfidence maxD ds ≤ 1 := by
    unfold retrievalConfidence
    cases bestDistance ds with
    | none => norm_num
    | some d =>
      constructor
      · exact le_max_left 0 _
      · exact max_le (by norm_num) (min_le_left 1 _)
  refine ⟨⟨?_, ?_⟩, ?_, ?_⟩
  · unfold blend
    nlinarith [hrc.1, hrc.2]
  · unfold blend
    nlinarith [hrc.1, hrc.2]
  · have hb : retrievalConfidence maxD [0] =
        max 0 (min 1 (1 - 0 / maxD)) := rfl
    unfold blend
    rw [hb, zero_div, sub_zero, min_self,
      max_eq_right (by norm_num : (0 : ℚ) ≤ 1)]
    norm_num
  · have hb : retrievalConfidence maxD [] = 0 := rfl
    unfold blend
    rw [hb]
    norm_num
    exact hthr

/-- C3 witness: the theorem applied to maximum-useful-distance 2,
threshold 0.65, self confidence 0.5, and a single retrieval distance 1. -/
theorem claim_C3_witness :
    (0 : ℚ) ≤ 1 / 2 ∧ (1 / 2 : ℚ) ≤ 1 ∧ (0 : ℚ) < 13 / 20 ∧
    ((0 ≤ blend 2 (1 / 2) [1] ∧ blend 2 (1 / 2) [1] ≤ 1) ∧
      blend 2 1 [0] = 1 ∧
      blend 2 0 [] < 13 / 20) :=
  ⟨by norm_num, by norm_num, by norm_num,
    claim_C3_confidence_bounds 2 (13 / 20) (1 / 2) [1]
      (by norm_num) (by norm_num) (by norm_num)⟩

/-! ## Claim C4 -/

/-- C4: a successful ingest or tombstone strictly increases the store
generation counter; a cache read whose entry records a different
generation, or whose TTL has expired, is a miss (as is a read with no
entry); put records the current generation; and after an ingest or a
tombstone every entry written at or before the old generation is a miss,
so ingestion invalidates the whole cache without a sweep. -/
theorem claim_C4_generation_invalidation (s : SystemState)
    (k q lang answer : String) (h ttl now : Nat) :
    s.generation < (ingest s k h).generation ∧
    s.generation < (tombstone s k).generation ∧
    (∀ e, alistLookup s.cache (q, lang) = some e →
      (e.generation ≠ s.generation ∨ e.expiry < now) →
      cacheGet s q lang now = none) ∧
    (alistLookup s.cache (q, lang) = none →
      cacheGet s q lang now = none) ∧
    alistLookup (cachePut s q lang answer ttl now).cache (q, lang) =
      some ⟨answer, s.generation, now + ttl⟩ ∧
    (∀ e, alistLookup s.cache (q, lang) = some e →
      e.generation ≤ s.generation →
      cacheGet (ingest s k h) q lang now = none ∧
      cacheGet (tombstone s k) q lang now = none) := by
  refine ⟨Nat.lt_succ_self _, Nat.lt_succ_self _, ?_, ?_, ?_, ?_⟩
  · intro e he hbad
    unfold cacheGet
    rw [he]
    have hcond : ¬ (e.generation = s.generation ∧ now ≤ e.expiry) := by
      rintro ⟨h1, h2⟩
      rcases hbad with hg | hx
      · exact hg h1
      · omega
    exact if_neg hcond
  · intro he
    unfold cacheGet
    rw [he]
  · unfold cachePut alistLookup
    simp
  · intro e he hle
    constructor
    · unfold cacheGet
      have hc : (ingest s k h).cache = s.cache := rfl
      have hg : (ingest s k h).generation = s.generation + 1 := rfl
      rw [hc, he, hg]
      have hcond : ¬ (e.generation = s.generation + 1 ∧ now ≤ e.expiry) := by
        rintro ⟨h1, _⟩
        omega
      exact if_neg hcond
    · unfold cacheGet
      have hc : (tombstone s k).cache = s.cache := rfl
      have hg : (tombstone s k).generation = s.generation + 1 := rfl
      rw [hc, he, hg]
      have hcond : ¬ (e.generation = s.generation + 1 ∧ now ≤ e.expiry) := by
        rintro ⟨h1, _⟩
        omega
      exact if_neg hcond

/-- C4 witness: the theorem applied to a concrete state at generation 5
holding one cache entry recorded at generation 5. -/
theorem claim_C4_witness :
    alistLookup (SystemState.mk 5 [("p", 9)]
        [(("q", "en"), CacheEntry.mk "ans" 5 100)]).cache ("q", "en") =
      some (CacheEntry.mk "ans" 5 100) ∧
    (CacheEntry.mk "ans" 5 100).generation ≤
      (SystemState.mk 5 [("p", 9)]
        [(("q", "en"), CacheEntry.mk "ans" 5 100)]).generation ∧
    (cacheGet (ingest (SystemState.mk 5 [("p", 9)]
        [(("q", "en"), CacheEntry.mk "ans" 5 100)]) "p" 10) "q" "en" 50 =
        none ∧
      cacheGet (tombstone (SystemState.mk 5 [("p", 9)]
        [(("q", "en"), CacheEntry.mk "ans" 5 100)]) "p") "q" "en" 50 =
        none) :=
  ⟨by decide, by decide,
    (claim_C4_generation_invalidation
        (SystemState.mk 5 [("p", 9)]
          [(("q", "en"), CacheEntry.mk "ans" 5 100)])
        "p" "q" "en" "x" 10 20 50).2.2.2.2.2
      (CacheEntry.mk "ans" 5 100) (by decide) (by decide)⟩

/-! ## Claim C2 -/

theorem chunkFrom_cover (w o : Nat) (ho : o < w) (n : Nat) :
    ∀ (s : List Char), s.length ≤ n → ∀ (pos p : Nat), p < s.length →
      ∃ pr ∈ chunkFrom w o s pos,
        pr.1 ≤ pos + p ∧ pos + p < pr.1 + pr.2.length := by
  induction n with
  | zero =>
    intro s hs pos p hp
    omega
  | succ n ih =>
    intro s hs pos p hp
    by_cases hguard : s.length ≤ w ∨ w ≤ o
    · rw [chunkFrom, dif_pos hguard]
      exact ⟨(pos, s), List.mem_singleton.mpr rfl, by omega, by simp; omega⟩
    · rw [chunkFrom, dif_neg hguard]
      push_neg at hguard
      by_cases hpw : p < w
      · refine ⟨(pos, s.take w), List.mem_cons_self .., by omega, ?_⟩
        simp only [List.length_take]
        omega
      · have hlen : (s.drop (w - o)).length ≤ n := by
          simp only [List.length_drop]
          omega
        have hp2 : p - (w - o) < (s.drop (w - o)).length := by
          simp only [List.length_drop]
          omega
        obtain ⟨pr, hmem, h1, h2⟩ :=
          ih (s.drop (w - o)) hlen (pos + (w - o)) (p - (w - o)) hp2
        refine ⟨pr, List.mem_cons_of_mem _ hmem, ?_, ?_⟩ <;> omega

theorem chunkFrom_head_fst (w o : Nat) (s : List Char) (pos : Nat) :
    ∃ t rest, chunkFrom w o s pos = (pos, t) :: rest := by
  by_cases hguard : s.length ≤ w ∨ w ≤ o
  · rw [chunkFrom, dif_pos hguard]
    exact ⟨s, [], rfl⟩
  · rw [chunkFrom, dif_neg hguard]
    exact ⟨s.take w, _, rfl⟩

theorem chunkFrom_chain (w o : Nat) (n : Nat) :
    ∀ (s : List Char) (pos : Nat), s.length ≤ n →
      List.Chain' (fun a b : Nat × List Char =>
        b.1 + o = a.1 + a.2.length) (chunkFrom w o s pos) := by
  induction n with
  | zero =>
    intro s pos hs
    have hs0 : s.length ≤ w ∨ w ≤ o := by omega
    rw [chunkFrom, dif_pos hs0]
    simp
  | succ n ih =>
    intro s pos hs
    by_cases hguard : s.length ≤ w ∨ w ≤ o
    · rw [chunkFrom, dif_pos hguard]
      simp
    · rw [chunkFrom, dif_neg hguard]
      push_neg at hguard
      have hlen : (s.drop (w - o)).length ≤ n := by
        simp only [List.length_drop]
        omega
      rw [List.chain'_cons']
      refine ⟨?_, ih _ _ hlen⟩
      intro b hb
      obtain ⟨t, rest, heq⟩ :=
        chunkFrom_head_fst w o (s.drop (w - o)) (pos + (w - o))
      rw [heq] at hb
      simp only [List.head?_cons, Option.mem_def, Option.some.injEq] at hb
      subst hb
      simp only [List.length_take]
      omega

/-- C2: with overlap strictly below the window size, the chunk windows
cover every position of the input with no gaps, each window after the
first begins exactly `o` text units before the end of the previous
window, and an input no longer than one window yields exactly one
window. -/
theorem claim_C2_chunk_coverage (w o : Nat) (ho : o < w) (s : List Char) :
    (∀ p, p < s.length →
      ∃ pr ∈ chunkWindows w o s, pr.1 ≤ p ∧ p < pr.1 + pr.2.length) ∧
    List.Chain' (fun a b : Nat × List Char =>
      b.1 + o = a.1 + a.2.length) (chunkWindows w o s) ∧
    (s.length ≤ w → chunkWindows w o s = [(0, s)]) := by
  refine ⟨?_, ?_, ?_⟩
  · intro p hp
    have := chunkFrom_cover w o ho s.length s le_rfl 0 p hp
    simpa using this
  · exact chunkFrom_chain w o s.length s 0 le_rfl
  · intro hle
    unfold chunkWindows
    rw [chunkFrom, dif_pos (Or.inl hle)]

/-- C2 witness: the theorem applied to window size 3, overlap 1 and the
five-character input abcde. -/
theorem claim_C2_witness :
    1 < 3 ∧
    ((∀ p, p < (chars "abcde").length →
      ∃ pr ∈ chunkWindows 3 1 (chars "abcde"),
        pr.1 ≤ p ∧ p < pr.1 + pr.2.length) ∧
    List.Chain' (fun a b : Nat × List Char =>
      b.1 + 1 = a.1 + a.2.length) (chunkWindows 3 1 (chars "abcde")) ∧
    ((chars "abcde").length ≤ 3 →
      chunkWindows 3 1 (chars "abcde") = [(0, chars "abcde")])) :=
  ⟨by decide, claim_C2_chunk_coverage 3 1 (by decide) (chars "abcde")⟩

/-! ## Claim C7 -/

theorem argmaxFirst_eq_none_iff (l : List (Topic × Nat)) :
    argmaxFirst l = none ↔ l = [] := by
  cases l with
  | nil => simp [argmaxFirst]
  | cons x xs =>
    simp only [argmaxFirst]
    cases hxs : argmaxFirst xs with
    | none => simp
    | some y => by_cases hxy : x.2 < y.2 <;> simp [hxy]

theorem argmaxFirst_spec (l : List (Topic × Nat)) (y : Topic × Nat)
    (h : argmaxFirst l = some y) :
    ∃ pre post, l = pre ++ y :: post ∧
      (∀ z ∈ pre, z.2 < y.2) ∧ (∀ z ∈ post, z.2 ≤ y.2) := by
  induction l generalizing y with
  | nil => simp [argmaxFirst] at h
  | cons x xs ih =>
    rw [argmaxFirst] at h
    cases hxs : argmaxFirst xs with
    | none =>
      rw [hxs] at h
      injection h with h
      subst h
      have hnil : xs = [] := (argmaxFirst_eq_none_iff xs).mp hxs
      subst hnil
      exact ⟨[], [], rfl, by simp, by simp⟩
    | some y' =>
      rw [hxs] at h
      have h' : (if x.2 < y'.2 then some y' else some x) = some y := h
      by_cases hxy : x.2 < y'.2
      · rw [if_pos hxy] at h'
        injection h' with h'
        subst h'
        obtain ⟨pre, post, heq, hpre, hpost⟩ := ih y' hxs
        refine ⟨x :: pre, post, by rw [heq]; rfl, ?_, hpost⟩
        intro z hz
        rcases List.mem_cons.mp hz with rfl | hz2
        · exact hxy
        · exact hpre z hz2
      · rw [if_neg hxy] at h'
        injection h' with h'
        subst h'
        obtain ⟨pre, post, heq, hpre, hpost⟩ := ih y' hxs
        refine ⟨[], xs, rfl, by simp, ?_⟩
        intro z hz
        rw [heq] at hz
        rcases List.mem_append.mp hz with hin | hin
        · have := hpre z hin
          omega
        · rcases List.mem_cons.mp hin with rfl | hin2
          · omega
          · have := hpost z hin2
            omega

theorem argmaxFirst_mem (l : List (Topic × Nat)) (y : Topic × Nat)
    (h : argmaxFirst l = some y) : y ∈ l := by
  obtain ⟨pre, post, heq, _, _⟩ := argmaxFirst_spec l y h
  rw [heq]
  exact List.mem_append_right _ (List.mem_cons_self ..)

/-- C7: classify returns "general" when no pattern matches, and otherwise
the label of the topic of maximal keyword-match score that comes first in
the configured priority order: every earlier topic scores strictly less
and every later topic scores no more. -/
theorem claim_C7_topic_routing (topics : List Topic) (q : List Char) :
    ((∀ t ∈ topics, topicScore q t = 0) → classify topics q = "general") ∧
    (∀ t0 ∈ topics, 0 < topicScore q t0 →
      ∃ pre t post, topics = pre ++ t :: post ∧
        classify topics q = t.label ∧
        (∀ t2 ∈ pre, topicScore q t2 < topicScore q t) ∧
        (∀ t2 ∈ post, topicScore q t2 ≤ topicScore q t)) := by
  constructor
  · intro hz
    unfold classify
    cases ham : argmaxFirst (topics.map fun t => (t, topicScore q t)) with
    | none => rfl
    | some y =>
      obtain ⟨t, ht, hyeq⟩ := List.mem_map.mp (argmaxFirst_mem _ y ham)
      rcases hyeq with rfl
      exact if_pos (hz t ht)
  · intro t0 ht0 hpos
    cases ham : argmaxFirst (topics.map fun t => (t, topicScore q t)) with
    | none =>
      rw [argmaxFirst_eq_none_iff, List.map_eq_nil_iff] at ham
      subst ham
      simp at ht0
    | some y =>
      obtain ⟨preS, postS, heqS, hpreS, hpostS⟩ := argmaxFirst_spec _ y ham
      obtain ⟨t, htmem, hyeq⟩ := List.mem_map.mp (argmaxFirst_mem _ y ham)
      rcases hyeq with rfl
      have hmax : topicScore q t0 ≤ topicScore q t := by
        have hin0 : (t0, topicScore q t0) ∈
            topics.map fun t => (t, topicScore q t) :=
          List.mem_map.mpr ⟨t0, ht0, rfl⟩
        rw [heqS] at hin0
        rcases List.mem_append.mp hin0 with hin | hin
        · exact le_of_lt (hpreS _ hin)
        · rcases List.mem_cons.mp hin with heq2 | hin2
          · have := congrArg Prod.snd heq2
            exact le_of_eq this
          · exact hpostS _ hin2
      have hne : topicScore q t ≠ 0 := by omega
      refine ⟨preS.map Prod.fst, t, postS.map Prod.fst, ?_, ?_, ?_, ?_⟩
      · have hround : topics =
            ((topics.map fun t => (t, topicScore q t)).map Prod.fst) := by
          have hcomp : (Prod.fst ∘ fun t : Topic => (t, topicScore q t)) =
              id := rfl
          rw [List.map_map, hcomp, List.map_id]
        rw [hround, heqS, List.map_append, List.map_cons]
      · unfold classify
        rw [ham]
        exact if_neg hne
      · intro t2 ht2
        obtain ⟨z, hz, rfl⟩ := List.mem_map.mp ht2
        have hzs : z ∈ topics.map fun t => (t, topicScore q t) := by
          rw [heqS]
          exact List.mem_append_left _ hz
        obtain ⟨a, _, haz⟩ := List.mem_map.mp hzs
        have h2 := hpreS z hz
        rw [← haz] at h2 ⊢
        exact h2
      · intro t2 ht2
        obtain ⟨z, hz, rfl⟩ := List.mem_map.mp ht2
        have hzs : z ∈ topics.map fun t => (t, topicScore q t) := by
          rw [heqS]
          exact List.mem_append_right _ (List.mem_cons_of_mem _ hz)
        obtain ⟨a, _, haz⟩ := List.mem_map.mp hzs
        have h2 := hpostS z hz
        rw [← haz] at h2 ⊢
        exact h2

/-- C7 witness: the theorem applied to a two-topic configuration and the
query about paying property taxes, which scores 2 on the taxes topic and
0 on the meetings topic. -/
theorem claim_C7_witness :
    Topic.mk "taxes-finance" [chars "tax", chars "pay"] ∈
      [Topic.mk "taxes-finance" [chars "tax", chars "pay"],
        Topic.mk "meetings" [chars "council"]] ∧
    0 < topicScore (chars "Pay property taxes")
      (Topic.mk "taxes-finance" [chars "tax", chars "pay"]) ∧
    (∃ pre t post,
      [Topic.mk "taxes-finance" [chars "tax", chars "pay"],
        Topic.mk "meetings" [chars "council"]] = pre ++ t :: post ∧
      classify [Topic.mk "taxes-finance" [chars "tax", chars "pay"],
        Topic.mk "meetings" [chars "council"]]
        (chars "Pay property taxes") = t.label ∧
      (∀ t2 ∈ pre, topicScore (chars "Pay property taxes") t2 <
        topicScore (chars "Pay property taxes") t) ∧
      (∀ t2 ∈ post, topicScore (chars "Pay property taxes") t2 ≤
        topicScore (chars "Pay property taxes") t)) :=
  ⟨by decide, by decide,
    (claim_C7_topic_routing
        [Topic.mk "taxes-finance" [chars "tax", chars "pay"],
          Topic.mk "meetings" [chars "council"]]
        (chars "Pay property taxes")).2
      (Topic.mk "taxes-finance" [chars "tax", chars "pay"])
      (by decide) (by decide)⟩

/-! ## Marker-stripping machinery for the chat widget (claims C9, C10) -/

theorem stripPfx_self (p s : List Char) : stripPfx p (p ++ s) = some s := by
  induction p with
  | nil => rfl
  | cons a ps ih => simp [stripPfx, ih]

theorem stripPfx_some (p : List Char) :
    ∀ s r, stripPfx p s = some r → s = p ++ r := by
  induction p with
  | nil =>
    intro s r h
    simp [stripPfx] at h
    simp [h]
  | cons a ps ih =>
    intro s r h
    cases s with
    | nil => simp [stripPfx] at h
    | cons c cs =>
      by_cases hac : a = c
      · subst hac
        simp only [stripPfx, if_pos rfl] at h
        have := ih cs r h
        simp [this]
      · simp [stripPfx, hac] at h

theorem confMatch_ne_bracket {c : Char} (cs : List Char) (hc : c ≠ '[') :
    confMatch (c :: cs) = none := by
  have h1 : confMarkerOpen = '[' :: chars "CONFIDENCE:" := rfl
  unfold confMatch
  rw [h1]
  have h2 : stripPfx ('[' :: chars "CONFIDENCE:") (c :: cs) = none := by
    unfold stripPfx
    rw [if_neg (fun h => hc h.symm)]
  rw [h2]

theorem handoffMatch_ne_bracket {c : Char} (cs : List Char) (hc : c ≠ '[') :
    handoffMatch (c :: cs) = none := by
  have h1 : handoffMarker = '[' :: chars "HANDOFF_NEEDED]" := rfl
  unfold handoffMatch
  rw [h1]
  unfold stripPfx
  rw [if_neg (fun h => hc h.symm)]

theorem anyMarker_ne_bracket {c : Char} (cs : List Char) (hc : c ≠ '[') :
    anyMarker (c :: cs) = none := by
  unfold anyMarker
  rw [confMatch_ne_bracket cs hc, handoffMatch_ne_bracket cs hc]

theorem confMatch_length {s r : List Char} (h : confMatch s = some r) :
    r.length < s.length := by
  unfold confMatch at h
  cases hsp : stripPfx confMarkerOpen s with
  | none => rw [hsp] at h; cases h
  | some r0 =>
    rw [hsp] at h
    have hs : s = confMarkerOpen ++ r0 := stripPfx_some _ _ _ hsp
    have h' : (if (r0.takeWhile isDigitDot).isEmpty then none
        else match r0.dropWhile isDigitDot with
          | [] => none
          | e :: tail => if e = ']' then some tail else none) = some r := h
    by_cases hrun : (r0.takeWhile isDigitDot).isEmpty
    · rw [if_pos hrun] at h'; cases h'
    · rw [if_neg hrun] at h'
      cases hdw : r0.dropWhile isDigitDot with
      | nil => rw [hdw] at h'; cases h'
      | cons e tail =>
        rw [hdw] at h'
        have h2 : (if e = ']' then some tail else none) = some r := h'
        by_cases he : e = ']'
        · rw [if_pos he] at h2
          injection h2 with h2
          subst h2
          have hsplit : r0.takeWhile isDigitDot ++ r0.dropWhile isDigitDot
              = r0 := List.takeWhile_append_dropWhile isDigitDot r0
          have hlen0 := congrArg List.length hsplit
          rw [List.length_append, hdw] at hlen0
          simp only [List.length_cons] at hlen0
          have hslen : s.length = confMarkerOpen.length + r0.length := by
            rw [hs, List.length_append]
          have hmark : confMarkerOpen.length = 12 := by decide
          omega
        · rw [if_neg he] at h2; cases h2

theorem handoffMatch_length {s r : List Char}
    (h : handoffMatch s = some r) : r.length < s.length := by
  have hs : s = handoffMarker ++ r := stripPfx_some _ _ _ h
  have hmark : handoffMarker.length = 16 := by decide
  rw [hs, List.length_append]
  omega

theorem anyMarker_length {s r : List Char} (h : anyMarker s = some r) :
    r.length < s.length := by
  unfold anyMarker at h
  cases hcm : confMatch s with
  | some r' =>
    rw [hcm] at h
    injection h with h
    subst h
    exact confMatch_length hcm
  | none =>
    rw [hcm] at h
    exact handoffMatch_length h

theorem stripAux_fuel (m : List Char → Option (List Char))
    (hm : ∀ s r, m s = some r → r.length < s.length) :
    ∀ (fuel1 : Nat) (fuel2 : Nat) (s : List Char),
      s.length ≤ fuel1 → s.length ≤ fuel2 →
      stripAux m fuel1 s = stripAux m fuel2 s := by
  intro fuel1
  induction fuel1 with
  | zero =>
    intro fuel2 s h1 h2
    have : s = [] := List.eq_nil_of_length_eq_zero (by omega)
    subst this
    cases fuel2 <;> rfl
  | succ fuel1 ih =>
    intro fuel2 s h1 h2
    cases s with
    | nil => cases fuel2 <;> rfl
    | cons c cs =>
      cases fuel2 with
      | zero => simp at h2
      | succ fuel2 =>
        show (match m (c :: cs) with
          | some r => stripAux m fuel1 r
          | none => c :: stripAux m fuel1 cs) =
          (match m (c :: cs) with
          | some r => stripAux m fuel2 r
          | none => c :: stripAux m fuel2 cs)
        cases hmr : m (c :: cs) with
        | some r =>
          have hr := hm _ _ hmr
          simp only [List.length_cons] at h1 h2 hr
          exact ih fuel2 r (by omega) (by omega)
        | none =>
          simp only [List.length_cons] at h1 h2
          rw [ih fuel2 cs (by omega) (by omega)]

theorem stripAll_cons (m : List Char → Option (List Char))
    (hm : ∀ s r, m s = some r → r.length < s.length)
    (c : Char) (cs : List Char) :
    stripAll m (c :: cs) =
      match m (c :: cs) with
      | some r => stripAll m r
      | none => c :: stripAll m cs := by
  show stripAux m (c :: cs).length (c :: cs) = _
  have hstep : stripAux m (c :: cs).length (c :: cs) =
      (match m (c :: cs) with
      | some r => stripAux m cs.length r
      | none => c :: stripAux m cs.length cs) := rfl
  rw [hstep]
  cases hmr : m (c :: cs) with
  | some r =>
    have hr := hm _ _ hmr
    simp only [List.length_cons] at hr
    exact stripAux_fuel m hm cs.length r.length r (by omega) le_rfl
  | none => rfl

theorem goodAux_fuel (m : List Char → Option (List Char))
    (hm : ∀ s r, m s = some r → r.length < s.length) :
    ∀ (fuel1 : Nat) (fuel2 : Nat) (s : List Char),
      s.length ≤ fuel1 → s.length ≤ fuel2 →
      goodAux m fuel1 s = goodAux m fuel2 s := by
  intro fuel1
  induction fuel1 with
  | zero =>
    intro fuel2 s h1 h2
    have : s = [] := List.eq_nil_of_length_eq_zero (by omega)
    subst this
    cases fuel2 <;> rfl
  | succ fuel1 ih =>
    intro fuel2 s h1 h2
    cases s with
    | nil => cases fuel2 <;> rfl
    | cons c cs =>
      cases fuel2 with
      | zero => simp at h2
      | succ fuel2 =>
        show (if c = '[' then
            match m (c :: cs) with
            | some r => goodAux m fuel1 r
            | none => false
          else goodAux m fuel1 cs) =
          (if c = '[' then
            match m (c :: cs) with
            | some r => goodAux m fuel2 r
            | none => false
          else goodAux m fuel2 cs)
        simp only [List.length_cons] at h1 h2
        by_cases hc : c = '['
        · rw [if_pos hc, if_pos hc]
          cases hmr : m (c :: cs) with
          | some r =>
            have hr := hm _ _ hmr
            simp only [List.length_cons] at hr
            exact ih fuel2 r (by omega) (by omega)
          | none => rfl
        · rw [if_neg hc, if_neg hc]
          exact ih fuel2 cs (by omega) (by omega)

theorem goodMarked_cons (m : List Char → Option (List Char))
    (hm : ∀ s r, m s = some r → r.length < s.length)
    (c : Char) (cs : List Char) :
    goodMarked m (c :: cs) =
      (if c = '[' then
        match m (c :: cs) with
        | some r => goodMarked m r
        | none => false
      else goodMarked m cs) := by
  show goodAux m (c :: cs).length (c :: cs) = _
  have hstep : goodAux m (c :: cs).length (c :: cs) =
      (if c = '[' then
        match m (c :: cs) with
        | some r => goodAux m cs.length r
        | none => false
      else goodAux m cs.length cs) := rfl
  rw [hstep]
  by_cases hc : c = '['
  · rw [if_pos hc, if_pos hc]
    cases hmr : m (c :: cs) with
    | some r =>
      have hr := hm _ _ hmr
      simp only [List.length_cons] at hr
      exact goodAux_fuel m hm cs.length r.length r (by omega) le_rfl
    | none => rfl
  · rw [if_neg hc, if_neg hc]
    exact goodAux_fuel m hm cs.length cs.length cs le_rfl le_rfl

theorem goodMarked_of_no_bracket (m : List Char → Option (List Char))
    (hm : ∀ s r, m s = some r → r.length < s.length) :
    ∀ s : List Char, '[' ∉ s → goodMarked m s = true := by
  intro s
  induction s with
  | nil => intro _; rfl
  | cons c cs ih =>
    intro hnb
    have hc : c ≠ '[' := fun hcc => hnb (hcc ▸ List.mem_cons_self ..)
    rw [goodMarked_cons m hm, if_neg hc]
    exact ih (fun hmem => hnb (List.mem_cons_of_mem _ hmem))

theorem hasMarker_eq_false_of_no_bracket
    (m : List Char → Option (List Char))
    (hmB : ∀ (c : Char) (cs : List Char), c ≠ '[' → m (c :: cs) = none) :
    ∀ s : List Char, '[' ∉ s → hasMarker m s = false := by
  intro s
  induction s with
  | nil => intro _; rfl
  | cons c cs ih =>
    intro hnb
    have hc : c ≠ '[' := fun hcc => hnb (hcc ▸ List.mem_cons_self ..)
    show ((m (c :: cs)).isSome || hasMarker m cs) = false
    rw [hmB c cs hc, ih (fun hmem => hnb (List.mem_cons_of_mem _ hmem))]
    rfl

theorem stripAll_append_no_bracket (m : List Char → Option (List Char))
    (hm : ∀ s r, m s = some r → r.length < s.length)
    (hmB : ∀ (c : Char) (cs : List Char), c ≠ '[' → m (c :: cs) = none) :
    ∀ t s : List Char, '[' ∉ t →
      stripAll m (t ++ s) = t ++ stripAll m s := by
  intro t
  induction t with
  | nil => intro s _; rfl
  | cons c t2 ih =>
    intro s hnb
    have hc : c ≠ '[' := fun hcc => hnb (hcc ▸ List.mem_cons_self ..)
    rw [List.cons_append, stripAll_cons m hm, hmB c _ hc,
      ih s (fun hmem => hnb (List.mem_cons_of_mem _ hmem))]
    rfl

theorem goodMarked_handoffMarker_append (s : List Char) :
    goodMarked handoffMatch (handoffMarker ++ s) =
      goodMarked handoffMatch s := by
  have hm : ∀ (s2 r : List Char), handoffMatch s2 = some r →
      r.length < s2.length := fun _ _ h => handoffMatch_length h
  have h1 : handoffMarker ++ s = '[' :: (chars "HANDOFF_NEEDED]" ++ s) :=
    rfl
  rw [h1, goodMarked_cons handoffMatch hm, if_pos rfl]
  have h2 : handoffMatch ('[' :: (chars "HANDOFF_NEEDED]" ++ s)) = some s := by
    show stripPfx handoffMarker (handoffMarker ++ s) = some s
    exact stripPfx_self _ _
  rw [h2]

theorem goodHand_stripConf (n : Nat) :
    ∀ s : List Char, s.length ≤ n → goodMarked anyMarker s = true →
      goodMarked handoffMatch (stripAll confMatch s) = true := by
  have hmA : ∀ (s r : List Char), anyMarker s = some r →
      r.length < s.length := fun _ _ h => anyMarker_length h
  have hmC : ∀ (s r : List Char), confMatch s = some r →
      r.length < s.length := fun _ _ h => confMatch_length h
  have hmH : ∀ (s r : List Char), handoffMatch s = some r →
      r.length < s.length := fun _ _ h => handoffMatch_length h
  induction n with
  | zero =>
    intro s hlen _
    have : s = [] := List.eq_nil_of_length_eq_zero (by omega)
    subst this
    rfl
  | succ n ih =>
    intro s hlen hgood
    cases s with
    | nil => rfl
    | cons c cs =>
      simp only [List.length_cons] at hlen
      by_cases hc : c = '['
      · subst hc
        rw [goodMarked_cons anyMarker hmA, if_pos rfl] at hgood
        cases ham : anyMarker ('[' :: cs) with
        | none => rw [ham] at hgood; cases hgood
        | some r =>
          rw [ham] at hgood
          have hrgood : goodMarked anyMarker r = true := hgood
          have hrlen : r.length ≤ n := by
            have := anyMarker_length ham
            simp only [List.length_cons] at this
            omega
          cases hcm : confMatch ('[' :: cs) with
          | some r2 =>
            have hr2 : r2 = r := by
              unfold anyMarker at ham
              rw [hcm] at ham
              injection ham
            subst hr2
            rw [stripAll_cons confMatch hmC, hcm]
            exact ih r2 hrlen hrgood
          | none =>
            have hhm : handoffMatch ('[' :: cs) = some r := by
              unfold anyMarker at ham
              rw [hcm] at ham
              exact ham
            have hdec : '[' :: cs = handoffMarker ++ r :=
              stripPfx_some _ _ _ hhm
            have htl : cs = chars "HANDOFF_NEEDED]" ++ r := by
              have h1 : handoffMarker ++ r =
                  '[' :: (chars "HANDOFF_NEEDED]" ++ r) := rfl
              rw [h1] at hdec
              injection hdec
            rw [stripAll_cons confMatch hmC, hcm, htl,
              stripAll_append_no_bracket confMatch hmC
                (fun c2 cs2 h => confMatch_ne_bracket cs2 h)
                (chars "HANDOFF_NEEDED]") r (by decide)]
            have hasm : ('[' : Char) ::
                (chars "HANDOFF_NEEDED]" ++ stripAll confMatch r) =
                handoffMarker ++ stripAll confMatch r := rfl
            rw [hasm, goodMarked_handoffMarker_append]
            exact ih r hrlen hrgood
      · rw [goodMarked_cons anyMarker hmA, if_neg hc] at hgood
        rw [stripAll_cons confMatch hmC,
          confMatch_ne_bracket cs hc,
          goodMarked_cons handoffMatch hmH, if_neg hc]
        exact ih cs (by omega) hgood

theorem goodMarked_ltrim {s : List Char}
    (h : goodMarked handoffMatch s = true) :
    goodMarked handoffMatch (ltrim s) = true := by
  have hmH : ∀ (s2 r : List Char), handoffMatch s2 = some r →
      r.length < s2.length := fun _ _ h2 => handoffMatch_length h2
  induction s with
  | nil => exact h
  | cons c cs ih =>
    by_cases hws : isWsChar c
    · have hc : c ≠ '[' := by
        intro hcc
        rw [hcc] at hws
        exact absurd hws (by decide)
      rw [goodMarked_cons handoffMatch hmH, if_neg hc] at h
      have h2 : ltrim (c :: cs) = ltrim cs := by
        simp [ltrim, List.dropWhile_cons, hws]
      rw [h2]
      exact ih h
    · have h2 : ltrim (c :: cs) = c :: cs := by
        simp [ltrim, List.dropWhile_cons, hws]
      rw [h2]
      exact h

theorem rtrim_decomp (s : List Char) :
    ∃ w, s = rtrim s ++ w ∧ ∀ c ∈ w, isWsChar c = true := by
  induction s with
  | nil => exact ⟨[], rfl, by simp⟩
  | cons c cs ih =>
    obtain ⟨w, hw, hws⟩ := ih
    cases hr : rtrim cs with
    | nil =>
      rw [hr] at hw
      simp only [List.nil_append] at hw
      by_cases hc : isWsChar c
      · have h2 : rtrim (c :: cs) = [] := by simp [rtrim, hr, hc]
        refine ⟨c :: w, ?_, ?_⟩
        · rw [h2, ← hw]
          rfl
        · intro x hx
          rcases List.mem_cons.mp hx with rfl | hx2
          · exact hc
          · exact hws x hx2
      · have h2 : rtrim (c :: cs) = [c] := by simp [rtrim, hr, hc]
        refine ⟨w, ?_, hws⟩
        rw [h2, ← hw]
        rfl
    | cons d ds =>
      have h2 : rtrim (c :: cs) = c :: rtrim cs := by simp [rtrim, hr]
      refine ⟨w, ?_, hws⟩
      rw [h2]
      rw [List.cons_append, ← hw]

theorem stripPfx_append_ws (w : List Char)
    (hws : ∀ c ∈ w, isWsChar c = true) :
    ∀ (p x : List Char), (∀ c ∈ p, isWsChar c = false) →
      stripPfx p (x ++ w) = Option.map (fun r => r ++ w) (stripPfx p x) := by
  intro p
  induction p with
  | nil => intro x _; rfl
  | cons a ps ih =>
    intro x hp
    cases x with
    | nil =>
      simp only [List.nil_append]
      cases w with
      | nil => rfl
      | cons c w2 =>
        have ha : isWsChar a = false := hp a (List.mem_cons_self ..)
        have hc : isWsChar c = true := hws c (List.mem_cons_self ..)
        have hac : a ≠ c := by
          intro h
          rw [h] at ha
          rw [ha] at hc
          cases hc
        show (if a = c then stripPfx ps w2 else none) = _
        rw [if_neg hac]
        rfl
    | cons c x2 =>
      show (if a = c then stripPfx ps (x2 ++ w) else none) =
        Option.map (fun r => r ++ w) (if a = c then stripPfx ps x2 else none)
      by_cases hac : a = c
      · rw [if_pos hac, if_pos hac]
        exact ih x2 (fun d hd => hp d (List.mem_cons_of_mem _ hd))
      · rw [if_neg hac, if_neg hac]
        rfl

theorem handoffMatch_append_ws (x w : List Char)
    (hws : ∀ c ∈ w, isWsChar c = true) :
    handoffMatch (x ++ w) =
      Option.map (fun r => r ++ w) (handoffMatch x) := by
  unfold handoffMatch
  exact stripPfx_append_ws w hws handoffMarker x (by decide)

theorem goodMarked_append_ws (n : Nat) :
    ∀ x w : List Char, x.length ≤ n → (∀ c ∈ w, isWsChar c = true) →
      goodMarked handoffMatch (x ++ w) = goodMarked handoffMatch x := by
  have hmH : ∀ (s2 r : List Char), handoffMatch s2 = some r →
      r.length < s2.length := fun _ _ h2 => handoffMatch_length h2
  induction n with
  | zero =>
    intro x w hlen hws
    have : x = [] := List.eq_nil_of_length_eq_zero (by omega)
    subst this
    simp only [List.nil_append]
    have hnb : '[' ∉ w := by
      intro hmem
      have := hws _ hmem
      exact absurd this (by decide)
    rw [goodMarked_of_no_bracket handoffMatch hmH w hnb]
    rfl
  | succ n ih =>
    intro x w hlen hws
    cases x with
    | nil =>
      simp only [List.nil_append]
      have hnb : '[' ∉ w := by
        intro hmem
        have := hws _ hmem
        exact absurd this (by decide)
      rw [goodMarked_of_no_bracket handoffMatch hmH w hnb]
      rfl
    | cons c x2 =>
      simp only [List.length_cons] at hlen
      rw [List.cons_append, goodMarked_cons handoffMatch hmH,
        goodMarked_cons handoffMatch hmH]
      by_cases hc : c = '['
      · rw [if_pos hc, if_pos hc]
        have hma : handoffMatch (c :: (x2 ++ w)) =
            Option.map (fun r => r ++ w) (handoffMatch (c :: x2)) := by
          have : c :: (x2 ++ w) = (c :: x2) ++ w := rfl
          rw [this]
          exact handoffMatch_append_ws (c :: x2) w hws
        rw [hma]
        cases hmm : handoffMatch (c :: x2) with
        | none => rfl
        | some r =>
          have hr := handoffMatch_length hmm
          simp only [List.length_cons] at hr
          show goodMarked handoffMatch (r ++ w) = goodMarked handoffMatch r
          exact ih r w (by omega) hws
      · rw [if_neg hc, if_neg hc]
        exact ih x2 w (by omega) hws

theorem goodMarked_rtrim {s : List Char}
    (h : goodMarked handoffMatch s = true) :
    goodMarked handoffMatch (rtrim s) = true := by
  obtain ⟨w, hw, hws⟩ := rtrim_decomp s
  have heq := goodMarked_append_ws (rtrim s).length (rtrim s) w le_rfl hws
  rw [← hw] at heq
  rw [← heq]
  exact h

theorem goodMarked_trimChars {s : List Char}
    (h : goodMarked handoffMatch s = true) :
    goodMarked handoffMatch (trimChars s) = true :=
  goodMarked_rtrim (goodMarked_ltrim h)

theorem no_bracket_stripAll_handoff (n : Nat) :
    ∀ s : List Char, s.length ≤ n → goodMarked handoffMatch s = true →
      '[' ∉ stripAll handoffMatch s := by
  have hmH : ∀ (s2 r : List Char), handoffMatch s2 = some r →
      r.length < s2.length := fun _ _ h2 => handoffMatch_length h2
  induction n with
  | zero =>
    intro s hlen _
    have : s = [] := List.eq_nil_of_length_eq_zero (by omega)
    subst this
    simp [stripAll, stripAux]
  | succ n ih =>
    intro s hlen hgood
    cases s with
    | nil => simp [stripAll, stripAux]
    | cons c cs =>
      simp only [List.length_cons] at hlen
      by_cases hc : c = '['
      · rw [goodMarked_cons handoffMatch hmH, if_pos hc] at hgood
        cases hmm : handoffMatch (c :: cs) with
        | none => rw [hmm] at hgood; cases hgood
        | some r =>
          rw [hmm] at hgood
          rw [stripAll_cons handoffMatch hmH, hmm]
          have hr := handoffMatch_length hmm
          simp only [List.length_cons] at hr
          exact ih r (by omega) hgood
      · rw [goodMarked_cons handoffMatch hmH, if_neg hc] at hgood
        rw [stripAll_cons handoffMatch hmH,
          handoffMatch_ne_bracket cs hc]
        intro hmem
        rcases List.mem_cons.mp hmem with heq | hmem2
        · exact hc heq.symm
        · exact ih cs (by omega) hgood hmem2

theorem mem_ltrim_subset {s : List Char} {c : Char} (h : c ∈ ltrim s) :
    c ∈ s := by
  induction s with
  | nil => exact h
  | cons a as ih =>
    by_cases hws : isWsChar a
    · have h2 : ltrim (a :: as) = ltrim as := by
        simp [ltrim, List.dropWhile_cons, hws]
      rw [h2] at h
      exact List.mem_cons_of_mem _ (ih h)
    · have h2 : ltrim (a :: as) = a :: as := by
        simp [ltrim, List.dropWhile_cons, hws]
      rw [h2] at h
      exact h

theorem mem_rtrim_subset {s : List Char} {c : Char} (h : c ∈ rtrim s) :
    c ∈ s := by
  obtain ⟨w, hw, _⟩ := rtrim_decomp s
  rw [hw]
  exact List.mem_append_left _ h

theorem no_bracket_trimChars {s : List Char} (h : '[' ∉ s) :
    '[' ∉ trimChars s := by
  intro hmem
  exact h (mem_ltrim_subset (mem_rtrim_subset hmem))

/-! ## Claim C10 -/

/-- C10 (amended): sendMessage strips the inline markers from the
accumulated token text with one global single-pass replacement each,
confidence markers first and then handoff markers, trimming after each
pass.  Each pass scans the original text once, so deleting a marker can
splice the surrounding fragments into a new marker which survives to the
displayed content; but whenever the accumulated text is an interleaving
of bracket-free text and complete markers, the final displayed content
contains no confidence marker and no handoff marker. -/
theorem claim_C10_markers_stripped (tokens : List (List Char))
    (hgood : goodMarked anyMarker (accumulateTokens tokens) = true) :
    hasMarker confMatch (finalContent (accumulateTokens tokens)) = false ∧
    hasMarker handoffMatch (finalContent (accumulateTokens tokens)) =
      false := by
  have g1 : goodMarked handoffMatch
      (stripAll confMatch (accumulateTokens tokens)) = true :=
    goodHand_stripConf (accumulateTokens tokens).length _ le_rfl hgood
  have g2 : goodMarked handoffMatch
      (trimChars (stripAll confMatch (accumulateTokens tokens))) = true :=
    goodMarked_trimChars g1
  have g3 : '[' ∉ stripAll handoffMatch
      (trimChars (stripAll confMatch (accumulateTokens tokens))) :=
    no_bracket_stripAll_handoff _ _ le_rfl g2
  have g4 : '[' ∉ cleanAccumulated (accumulateTokens tokens) := by
    unfold cleanAccumulated
    exact no_bracket_trimChars g3
  have hcB : ∀ (c : Char) (cs : List Char), c ≠ '[' →
      confMatch (c :: cs) = none := fun _ cs h => confMatch_ne_bracket cs h
  have hhB : ∀ (c : Char) (cs : List Char), c ≠ '[' →
      handoffMatch (c :: cs) = none :=
    fun _ cs h => handoffMatch_ne_bracket cs h
  unfold finalContent
  by_cases hempty : (cleanAccumulated (accumulateTokens tokens)).isEmpty
  · rw [if_pos hempty]
    have hfb : '[' ∉ fallbackText := by decide
    exact ⟨hasMarker_eq_false_of_no_bracket confMatch hcB _ hfb,
      hasMarker_eq_false_of_no_bracket handoffMatch hhB _ hfb⟩
  · rw [if_neg hempty]
    exact ⟨hasMarker_eq_false_of_no_bracket confMatch hcB _ g4,
      hasMarker_eq_false_of_no_bracket handoffMatch hhB _ g4⟩

/-- C10 counterexample to the claim as stated: deleting the handoff
marker from this completed stream splices the surrounding text into a
confidence marker, and the displayed content is exactly that marker. -/
theorem claim_C10_counterexample :
    finalContent (accumulateTokens
      [chars "[CONFIDENCE:[HANDOFF_NEEDED]1]"]) =
      chars "[CONFIDENCE:1]" ∧
    hasMarker confMatch (finalContent (accumulateTokens
      [chars "[CONFIDENCE:[HANDOFF_NEEDED]1]"])) = true := by
  constructor <;> decide

/-- C10 witness: the amended theorem applied to a stream whose
accumulated text interleaves plain text with one complete marker of each
kind. -/
theorem claim_C10_witness :
    goodMarked anyMarker (accumulateTokens
      [chars "Answer text ", chars "[CONFIDENCE:0.9]",
        chars " [HANDOFF_NEEDED]"]) = true ∧
    (hasMarker confMatch (finalContent (accumulateTokens
        [chars "Answer text ", chars "[CONFIDENCE:0.9]",
          chars " [HANDOFF_NEEDED]"])) = false ∧
      hasMarker handoffMatch (finalContent (accumulateTokens
        [chars "Answer text ", chars "[CONFIDENCE:0.9]",
          chars " [HANDOFF_NEEDED]"])) = false) :=
  ⟨by decide,
    claim_C10_markers_stripped
      [chars "Answer text ", chars "[CONFIDENCE:0.9]",
        chars " [HANDOFF_NEEDED]"] (by decide)⟩

/-! ## Claim C9 -/

/-- C9 (amended): when the stream completes and the cleaned accumulated
text is empty the assistant message shows the fixed fallback text and
keeps any received handoff information; when the chat request throws,
the shown content is the Error label followed by the thrown message when
the thrown value is an Error (the generic error translation only
otherwise) and no handoff information is attached; in both outcomes only
the last message of the list is replaced. -/
theorem claim_C9_degraded_failure (tokens : List (List Char))
    (handoff : Option HandoffInfo) (confidence : Option ℚ)
    (msgs : List AssistantMessage) (errMsg tGeneric : List Char)
    (hclean : cleanAccumulated (accumulateTokens tokens) = []) :
    (finalizeStreamed (accumulateTokens tokens) handoff confidence).content
      = fallbackText ∧
    (finalizeStreamed (accumulateTokens tokens) handoff confidence).handoff
      = handoff ∧
    (finalizeError (some errMsg) tGeneric).content =
      chars "Error: " ++ errMsg ∧
    (finalizeError (some errMsg) tGeneric).handoff = none ∧
    (finalizeError none tGeneric).content = tGeneric ∧
    (finalizeError none tGeneric).handoff = none ∧
    (updateLast msgs (finalizeError (some errMsg) tGeneric)).dropLast =
      msgs.dropLast := by
  refine ⟨?_, rfl, rfl, rfl, rfl, rfl, ?_⟩
  · show finalContent (accumulateTokens tokens) = fallbackText
    unfold finalContent
    rw [hclean]
    rfl
  · unfold updateLast
    simp

/-- C9 counterexample to the claim as stated: a chat request that throws
an Error with message boom displays the Error label with that message —
neither the fixed fallback text nor the generic error translation in
either language — and carries no handoff information. -/
theorem claim_C9_counterexample :
    (finalizeError (some (chars "boom")) errorGenericEn).content =
      chars "Error: boom" ∧
    (finalizeError (some (chars "boom")) errorGenericEn).content ≠
      fallbackText ∧
    (finalizeError (some (chars "boom")) errorGenericEn).content ≠
      errorGenericEn ∧
    (finalizeError (some (chars "boom")) errorGenericEn).content ≠
      errorGenericFr ∧
    (finalizeError (some (chars "boom")) errorGenericEn).handoff = none := by
  refine ⟨?_, ?_, ?_, ?_, rfl⟩ <;> decide

/-- C9 witness: the amended theorem applied to a stream whose only token
is a confidence marker surrounded by spaces, with a handoff payload, and
to the thrown message boom. -/
theorem claim_C9_witness :
    cleanAccumulated (accumulateTokens [chars " [CONFIDENCE:0.9] "]) = [] ∧
    ((finalizeStreamed (accumulateTokens [chars " [CONFIDENCE:0.9] "])
        (some (HandoffInfo.mk (chars "a@vernon.ca") [] [] []))
        (some (9 / 10))).content = fallbackText ∧
      (finalizeStreamed (accumulateTokens [chars " [CONFIDENCE:0.9] "])
        (some (HandoffInfo.mk (chars "a@vernon.ca") [] [] []))
        (some (9 / 10))).handoff =
        some (HandoffInfo.mk (chars "a@vernon.ca") [] [] []) ∧
      (finalizeError (some (chars "boom")) errorGenericEn).content =
        chars "Error: " ++ chars "boom" ∧
      (finalizeError (some (chars "boom")) errorGenericEn).handoff =
        none ∧
      (finalizeError none errorGenericEn).content = errorGenericEn ∧
      (finalizeError none errorGenericEn).handoff = none ∧
      (updateLast [] (finalizeError (some (chars "boom"))
        errorGenericEn)).dropLast =
        ([] : List AssistantMessage).dropLast) :=
  ⟨by decide,
    claim_C9_degraded_failure [chars " [CONFIDENCE:0.9] "]
      (some (HandoffInfo.mk (chars "a@vernon.ca") [] [] []))
      (some (9 / 10)) [] (chars "boom") errorGenericEn (by decide)⟩

/-! ## Claim C6 -/

/-- C6 (amended): an answer requires handoff exactly when the final
blended score falls below the configured threshold or retrieval returned
zero chunks (spec-modelled backend rule); the frontend's low-confidence
marking however compares the streamed confidence against the hard-coded
literal 0.65, not a configuration value, and marks nothing when no
confidence was streamed. -/
theorem claim_C6_handoff_threshold (threshold score c : ℚ) (n : Nat) :
    (handoffNeeded threshold score n = true ↔ score < threshold ∨ n = 0) ∧
    (isLowConf (some c) = true ↔ c < 65 / 100) ∧
    isLowConf none = false := by
  refine ⟨?_, ?_, rfl⟩
  · unfold handoffNeeded
    simp
  · unfold isLowConf
    simp

/-- C6 counterexample to the claim as stated: with a configured handoff
threshold of 0.5, a blended score of 0.6 with four retrieved chunks needs
no handoff under the configured rule, yet the frontend marks the answer
low-confidence — its comparison uses the literal 0.65, not the
configured threshold. -/
theorem claim_C6_counterexample :
    handoffNeeded (1 / 2) (3 / 5) 4 = false ∧
    isLowConf (some (3 / 5)) = true := by
  constructor
  · unfold handoffNeeded
    rw [Bool.or_eq_false_iff]
    constructor
    · rw [decide_eq_false_iff_not]
      norm_num
    · rw [decide_eq_false_iff_not]
      norm_num
  · unfold isLowConf
    rw [decide_eq_true_eq]
    norm_num

end Vernon
